import Mathlib

/-!
Verification of the task ranking and ROI core of `src/components/TaskTable.tsx`.

The embedding below translates the two algorithmic pieces of the component:

* `calculateROI` — the guarded ROI display computation
  (`if (!revenue || !time || time <= 0) return '—'; return (revenue / time).toFixed(2)`);
  numbers are modelled as exact rationals `ℚ`, an absent (`undefined`) input as `none`,
  and `toFixed(2)` as `toFixed2` (round half away from zero to two decimals, then print).
* `sortedTasks` — the three-key comparator
  (ROI descending with `?? 0` default, priority rank descending, then
  `a.title.localeCompare(b.title)` ascending) fed to the host's stable
  `Array.prototype.sort` over a spread copy `[...tasks]`.  The sign of the
  JavaScript comparator is translated into an `Ordering` value, the host's
  stable sort is modelled by the stable `List.insertionSort`, and
  `localeCompare` by code-point lexicographic comparison `localeCompare`.
-/

/-- Priority labels of a task: the closed set used by the component. -/
inductive Priority where
  | High
  | Medium
  | Low
deriving DecidableEq, Repr

/-- The rank table `const priorityRank = { High: 3, Medium: 2, Low: 1 }`. -/
def priorityRank : Priority → ℕ
  | .High => 3
  | .Medium => 2
  | .Low => 1

/-- A task record as consumed by the table: the fields of `DerivedTask`.
`roi` is the optional precomputed ROI (`number | undefined` in the source);
`notes` is the optional free-text annotation. -/
structure DerivedTask where
  id : String
  title : String
  revenue : ℚ
  timeTaken : ℚ
  priority : Priority
  status : String
  notes : Option String
  roi : Option ℚ
deriving DecidableEq, Repr

/-- Comparison of two characters by code point. -/
def cmpChar (a b : Char) : Ordering :=
  if a < b then .lt else if b < a then .gt else .eq

/-- Lexicographic comparison of two character lists. -/
def cmpChars : List Char → List Char → Ordering
  | [], [] => .eq
  | [], _ :: _ => .lt
  | _ :: _, [] => .gt
  | a :: s, b :: t =>
    match cmpChar a b with
    | .eq => cmpChars s t
    | o => o

/-- Models `a.localeCompare(b)` (a host string function, not repository code):
lexicographic comparison of the two strings, returning the sign of the
JavaScript result as an `Ordering`. -/
def localeCompare (s t : String) : Ordering :=
  cmpChars s.toList t.toList

/-- The ROI sort key: `a.roi ?? 0`, an absent ROI defaulting to `0`. -/
def roiKey (t : DerivedTask) : ℚ :=
  t.roi.getD 0

/-- The comparator passed to `sort`, with the sign of the returned number
translated into an `Ordering`:

* `roiDiff = (b.roi ?? 0) - (a.roi ?? 0)`; a nonzero value is returned, and it
  is negative exactly when `roiKey b < roiKey a`;
* `priorityDiff = priorityRank[b.priority] - priorityRank[a.priority]`,
  likewise returned when nonzero;
* otherwise `a.title.localeCompare(b.title)`. -/
def compareTasks (a b : DerivedTask) : Ordering :=
  if roiKey b ≠ roiKey a then
    (if roiKey b < roiKey a then .lt else .gt)
  else if priorityRank b.priority ≠ priorityRank a.priority then
    (if priorityRank b.priority < priorityRank a.priority then .lt else .gt)
  else
    localeCompare a.title b.title

/-- The "not after" relation induced by the comparator: `a` may be placed
before `b` exactly when the comparator does not return a positive number. -/
def taskLe (a b : DerivedTask) : Prop :=
  compareTasks a b ≠ Ordering.gt

instance : DecidableRel taskLe :=
  fun a b => inferInstanceAs (Decidable (compareTasks a b ≠ Ordering.gt))

/-- The ranking operation `const sortedTasks = [...tasks].sort(comparator)`:
a stable sort of a copy of the input by the comparator.  `Array.prototype.sort`
is stable (ES2019), modelled by the stable `List.insertionSort`. -/
def rank (tasks : List DerivedTask) : List DerivedTask :=
  tasks.insertionSort taskLe

/-- Printing of the scaled natural number `n` (the rounded value in hundredths)
as a two-decimal string, as `toFixed(2)` does for a non-negative value. -/
def fixedDigits (n : ℕ) : String :=
  toString (n / 100) ++ "." ++ (if n % 100 < 10 then "0" else "") ++ toString (n % 100)

/-- Models `x.toFixed(2)`: print the sign, then round the absolute value half
away from zero to a whole number of hundredths and print it with two decimals. -/
def toFixed2 (x : ℚ) : String :=
  if x < 0 then "-" ++ fixedDigits (⌊100 * (-x) + 1 / 2⌋).toNat
  else fixedDigits (⌊100 * x + 1 / 2⌋).toNat

/-- The guarded ROI computation

`const calculateROI = (revenue, time) => { if (!revenue || !time || time <= 0) return '—'; return (revenue / time).toFixed(2); }`.

An absent argument is `none` (falsy, like `undefined`), a present one is a
rational.  `!revenue` is `revenue = 0`, `!time` is `time = 0`. -/
def calculateROI : Option ℚ → Option ℚ → String
  | some revenue, some time =>
      if revenue = 0 ∨ time = 0 ∨ time ≤ 0 then "—"
      else toFixed2 (revenue / time)
  | none, _ => "—"
  | some _, none => "—"

/-- Helper used by witnesses and counterexamples: a task with the given id,
title, ROI and priority (revenue and time fields are irrelevant to ranking). -/
def mkTask (id title : String) (roi : Option ℚ) (p : Priority) : DerivedTask :=
  { id := id, title := title, revenue := 0, timeTaken := 0, priority := p,
    status := "todo", notes := none, roi := roi }

/-- Claim C2: whenever revenue is absent or zero, or time is absent, zero or
negative, `calculateROI` returns the undefined sentinel `—` rather than a
number or a fault. -/
theorem claim2_roi_guard :
    ∀ (revenue time : Option ℚ),
      (revenue = none ∨ revenue = some 0 ∨ time = none ∨
        ∃ x : ℚ, time = some x ∧ x ≤ 0) →
      calculateROI revenue time = "—" := by
  intro revenue time h
  rcases revenue with _ | r
  · rfl
  rcases time with _ | t
  · rfl
  rcases h with h | h | h | ⟨x, hx, hx0⟩
  · exact absurd h (by simp)
  · have hr : r = 0 := by simpa using h
    simp [calculateROI, hr]
  · exact absurd h (by simp)
  · have ht : t = x := by simpa using hx
    subst ht
    simp [calculateROI, hx0]

/-- Witness for C2 at the three spec instances: `computeROI(3, 0)`,
`computeROI(3, -5)` and `computeROI(0, 4)` all give the sentinel. -/
theorem claim2_roi_guard_witness :
    calculateROI (some 3) (some 0) = "—" ∧
    calculateROI (some 3) (some (-5)) = "—" ∧
    calculateROI (some 0) (some 4) = "—" :=
  ⟨claim2_roi_guard (some 3) (some 0)
      (Or.inr (Or.inr (Or.inr ⟨0, rfl, le_refl 0⟩))),
   claim2_roi_guard (some 3) (some (-5))
      (Or.inr (Or.inr (Or.inr ⟨-5, rfl, by norm_num⟩))),
   claim2_roi_guard (some 0) (some 4) (Or.inr (Or.inl rfl))⟩

/-- Claim C3: for nonzero revenue and strictly positive time, `calculateROI`
returns the quotient formatted with exactly two decimals; in particular
`computeROI(100, 4) = "25.00"` and `computeROI(7, 3) = "2.33"`. -/
theorem claim3_roi_value :
    (∀ r t : ℚ, r ≠ 0 → 0 < t →
        calculateROI (some r) (some t) = toFixed2 (r / t)) ∧
    calculateROI (some 100) (some 4) = "25.00" ∧
    calculateROI (some 7) (some 3) = "2.33" := by
  refine ⟨fun r t hr ht => ?_, ?_, ?_⟩
  · simp only [calculateROI]
    rw [if_neg]
    push_neg
    exact ⟨hr, ne_of_gt ht, ht⟩
  · have h1 : calculateROI (some 100) (some 4) = toFixed2 (100 / 4) := by
      simp only [calculateROI]
      rw [if_neg (by norm_num)]
    rw [h1, toFixed2, if_neg (by norm_num)]
    have h2 : ⌊(100 : ℚ) * (100 / 4) + 1 / 2⌋ = 2500 := by
      rw [Int.floor_eq_iff]
      norm_num
    rw [h2]
    decide
  · have h1 : calculateROI (some 7) (some 3) = toFixed2 (7 / 3) := by
      simp only [calculateROI]
      rw [if_neg (by norm_num)]
    rw [h1, toFixed2, if_neg (by norm_num)]
    have h2 : ⌊(100 : ℚ) * (7 / 3) + 1 / 2⌋ = 233 := by
      rw [Int.floor_eq_iff]
      norm_num
    rw [h2]
    decide

/-- Witness for C3's general clause at revenue 9, time 2. -/
theorem claim3_roi_value_witness :
    calculateROI (some 9) (some 2) = toFixed2 (9 / 2) :=
  claim3_roi_value.1 9 2 (by norm_num) (by norm_num)

/-- Claim C10: a strictly negative revenue with positive time passes the
guard (which only tests falsiness of revenue), so `calculateROI` returns the
formatted negative quotient, not the sentinel; `computeROI(-5, 2) = "-2.50"`. -/
theorem claim10_negative_revenue :
    (∀ r t : ℚ, r < 0 → 0 < t →
        calculateROI (some r) (some t) = toFixed2 (r / t)) ∧
    calculateROI (some (-5)) (some 2) = "-2.50" ∧
    calculateROI (some (-5)) (some 2) ≠ "—" := by
  have hgen : ∀ r t : ℚ, r < 0 → 0 < t →
      calculateROI (some r) (some t) = toFixed2 (r / t) := by
    intro r t hr ht
    simp only [calculateROI]
    rw [if_neg]
    push_neg
    exact ⟨ne_of_lt hr, ne_of_gt ht, ht⟩
  have hval : calculateROI (some (-5)) (some 2) = "-2.50" := by
    rw [hgen (-5) 2 (by norm_num) (by norm_num)]
    rw [toFixed2, if_pos (by norm_num)]
    have h2 : ⌊(100 : ℚ) * (-(-5 / 2)) + 1 / 2⌋ = 250 := by
      rw [Int.floor_eq_iff]
      norm_num
    rw [h2]
    decide
  refine ⟨hgen, hval, ?_⟩
  rw [hval]
  decide

/-- Witness for C10's general clause at revenue -7, time 2. -/
theorem claim10_negative_revenue_witness :
    calculateROI (some (-7)) (some 2) = toFixed2 (-7 / 2) :=
  claim10_negative_revenue.1 (-7) 2 (by norm_num) (by norm_num)

/-- Swapping the arguments of `cmpChar` swaps the resulting ordering. -/
theorem cmpChar_swap (a b : Char) : cmpChar b a = (cmpChar a b).swap := by
  unfold cmpChar
  rcases lt_trichotomy a b with h | h | h
  · simp [h, asymm h, Ordering.swap]
  · subst h
    simp [lt_irrefl, Ordering.swap]
  · simp [h, asymm h, Ordering.swap]

/-- The character comparison returns `eq` exactly on equal characters. -/
theorem cmpChar_eq_iff (a b : Char) : cmpChar a b = Ordering.eq ↔ a = b := by
  unfold cmpChar
  rcases lt_trichotomy a b with h | h | h
  · rw [if_pos h]
    simp [ne_of_lt h]
  · subst h
    rw [if_neg (lt_irrefl a), if_neg (lt_irrefl a)]
    simp
  · rw [if_neg (asymm h), if_pos h]
    simp [(ne_of_lt h).symm]

/-- The character comparison returns `lt` exactly on strictly smaller ones. -/
theorem cmpChar_lt_iff (a b : Char) : cmpChar a b = Ordering.lt ↔ a < b := by
  unfold cmpChar
  rcases lt_trichotomy a b with h | h | h
  · rw [if_pos h]
    simp [h]
  · subst h
    rw [if_neg (lt_irrefl a), if_neg (lt_irrefl a)]
    simp
  · rw [if_neg (asymm h), if_pos h]
    simp [asymm h]

/-- Swapping the arguments of `cmpChars` swaps the resulting ordering. -/
theorem cmpChars_swap : ∀ s t : List Char, cmpChars t s = (cmpChars s t).swap
  | [], [] => rfl
  | [], _ :: _ => rfl
  | _ :: _, [] => rfl
  | a :: s, b :: t => by
    simp only [cmpChars, cmpChar_swap a b]
    rcases h : cmpChar a b with _ | _ | _ <;> simp [Ordering.swap, cmpChars_swap s t]

/-- The list comparison returns `eq` exactly on equal lists. -/
theorem cmpChars_eq_iff : ∀ s t : List Char, cmpChars s t = Ordering.eq ↔ s = t
  | [], [] => by simp [cmpChars]
  | [], c :: t => by simp [cmpChars]
  | c :: s, [] => by simp [cmpChars]
  | a :: s, b :: t => by
    simp only [cmpChars]
    rcases h : cmpChar a b with _ | _ | _
    · have hne : a ≠ b := by
        intro hab
        rw [hab, (cmpChar_eq_iff b b).mpr rfl] at h
        cases h
      simp [hne]
    · obtain rfl := (cmpChar_eq_iff a b).mp h
      simp [cmpChars_eq_iff s t]
    · have hne : a ≠ b := by
        intro hab
        rw [hab, (cmpChar_eq_iff b b).mpr rfl] at h
        cases h
      simp [hne]

/-- Transitivity of "does not compare greater" for the list comparison. -/
theorem cmpChars_le_trans :
    ∀ s t u : List Char, cmpChars s t ≠ Ordering.gt → cmpChars t u ≠ Ordering.gt →
      cmpChars s u ≠ Ordering.gt
  | [], t, u, _, _ => by cases u <;> simp [cmpChars]
  | a :: s, [], u, h1, _ => absurd rfl h1
  | a :: s, b :: t, [], _, h2 => absurd rfl h2
  | a :: s, b :: t, c :: u, h1, h2 => by
    simp only [cmpChars] at h1 h2 ⊢
    rcases hab : cmpChar a b with _ | _ | _ <;> rw [hab] at h1 <;>
      rcases hbc : cmpChar b c with _ | _ | _ <;> rw [hbc] at h2
    · rw [cmpChar_lt_iff] at hab hbc
      rw [(cmpChar_lt_iff a c).mpr (lt_trans hab hbc)]
      simp
    · rw [cmpChar_eq_iff] at hbc
      subst hbc
      rw [hab]
      simp
    · exact absurd rfl h2
    · rw [cmpChar_eq_iff] at hab
      subst hab
      rw [hbc]
      simp
    · rw [cmpChar_eq_iff] at hab hbc
      subst hab
      subst hbc
      rw [(cmpChar_eq_iff a a).mpr rfl]
      exact cmpChars_le_trans s t u h1 h2
    · exact absurd rfl h2
    · exact absurd rfl h1
    · exact absurd rfl h1
    · exact absurd rfl h1

/-- Swapping the arguments of `localeCompare` swaps the resulting ordering. -/
theorem localeCompare_swap (s t : String) :
    localeCompare t s = (localeCompare s t).swap :=
  cmpChars_swap s.toList t.toList

/-- The string comparison returns `eq` exactly on equal strings. -/
theorem localeCompare_eq_iff (s t : String) :
    localeCompare s t = Ordering.eq ↔ s = t := by
  unfold localeCompare
  rw [cmpChars_eq_iff, String.toList_inj]

/-- Transitivity of "does not compare greater" for the string comparison. -/
theorem localeCompare_le_trans {s t u : String}
    (h1 : localeCompare s t ≠ Ordering.gt) (h2 : localeCompare t u ≠ Ordering.gt) :
    localeCompare s u ≠ Ordering.gt :=
  cmpChars_le_trans s.toList t.toList u.toList h1 h2

/-- Characterization of `taskLe` as a lexicographic "not after" condition on
the three sort keys. -/
theorem taskLe_iff (a b : DerivedTask) :
    taskLe a b ↔ roiKey b < roiKey a ∨
      (roiKey b = roiKey a ∧ (priorityRank b.priority < priorityRank a.priority ∨
        (priorityRank b.priority = priorityRank a.priority ∧
          localeCompare a.title b.title ≠ Ordering.gt))) := by
  unfold taskLe compareTasks
  split_ifs with h1 h2 h3 h4
  · simp [h2]
  · simp [h1, h2]
  · rw [not_not] at h1
    simp [h1, h4]
  · rw [not_not] at h1
    simp [h1, h3, h4]
  · rw [not_not] at h1
    rw [not_not] at h3
    simp [h1, h3]

/-- Swapping the arguments of the comparator swaps the resulting ordering. -/
theorem compareTasks_swap (a b : DerivedTask) :
    compareTasks b a = (compareTasks a b).swap := by
  unfold compareTasks
  rcases lt_trichotomy (roiKey a) (roiKey b) with h | h | h
  · simp [h, h.ne, h.ne', h.asymm, Ordering.swap]
  · rcases lt_trichotomy (priorityRank a.priority) (priorityRank b.priority) with
      hp | hp | hp
    · simp [h, hp, hp.ne, hp.ne', hp.asymm, Ordering.swap]
    · simp [h, hp, localeCompare_swap a.title b.title]
    · simp [h, hp, hp.ne, hp.ne', hp.asymm, Ordering.swap]
  · simp [h, h.ne, h.ne', h.asymm, Ordering.swap]

/-- Totality of the induced relation: for any two tasks, one of them may be
placed before the other. -/
theorem taskLe_total (a b : DerivedTask) : taskLe a b ∨ taskLe b a := by
  unfold taskLe
  rcases h : compareTasks a b with _ | _ | _
  · left
    simp
  · left
    simp
  · right
    rw [compareTasks_swap, h]
    simp [Ordering.swap]

/-- Transitivity of the induced relation. -/
theorem taskLe_trans {a b c : DerivedTask} (hab : taskLe a b) (hbc : taskLe b c) :
    taskLe a c := by
  rw [taskLe_iff] at hab hbc ⊢
  rcases hab with hab | ⟨hab1, hab2⟩
  · rcases hbc with hbc | ⟨hbc1, hbc2⟩
    · exact Or.inl (lt_trans hbc hab)
    · exact Or.inl (hbc1 ▸ hab)
  · rcases hbc with hbc | ⟨hbc1, hbc2⟩
    · exact Or.inl (hab1 ▸ hbc)
    · refine Or.inr ⟨hab1 ▸ hbc1, ?_⟩
      rcases hab2 with hab2 | ⟨hab2, hab3⟩
      · rcases hbc2 with hbc2 | ⟨hbc2, hbc3⟩
        · exact Or.inl (Nat.lt_trans hbc2 hab2)
        · exact Or.inl (hbc2 ▸ hab2)
      · rcases hbc2 with hbc2 | ⟨hbc2, hbc3⟩
        · exact Or.inl (hab2 ▸ hbc2)
        · exact Or.inr ⟨hab2 ▸ hbc2, localeCompare_le_trans hab3 hbc3⟩

instance : IsTotal DerivedTask taskLe :=
  ⟨taskLe_total⟩

instance : IsTrans DerivedTask taskLe :=
  ⟨fun _ _ _ => taskLe_trans⟩

/-- The output of `rank` is sorted for the induced relation. -/
theorem sorted_rank (ts : List DerivedTask) : (rank ts).Sorted taskLe :=
  List.sorted_insertionSort taskLe ts

/-- The output of `rank` is a permutation of its input. -/
theorem rank_perm (ts : List DerivedTask) : (rank ts).Perm ts :=
  List.perm_insertionSort taskLe ts

/-- Consecutive positions of the ranked output are related by `taskLe`. -/
theorem rank_le_of_lt (ts : List DerivedTask) (i j : Fin (rank ts).length)
    (h : i < j) : taskLe ((rank ts).get i) ((rank ts).get j) :=
  (sorted_rank ts).rel_get_of_lt h

/-- The comparator returns `eq` exactly when all three sort keys agree. -/
theorem compareTasks_eq_iff (a b : DerivedTask) :
    compareTasks a b = Ordering.eq ↔
      roiKey a = roiKey b ∧ priorityRank a.priority = priorityRank b.priority ∧
        a.title = b.title := by
  unfold compareTasks
  split_ifs with h1 h2 h3 h4
  · simp [Ne.symm h1]
  · simp [Ne.symm h1]
  · rw [not_not] at h1
    simp [Ne.symm h3]
  · rw [not_not] at h1
    simp [Ne.symm h3]
  · rw [not_not] at h1
    rw [not_not] at h3
    simp [localeCompare_eq_iff, h1, h3]

/-- Tasks that are mutually "not after" one another compare equal. -/
theorem taskLe_antisymm_eq {a b : DerivedTask} (hab : taskLe a b)
    (hba : taskLe b a) : compareTasks a b = Ordering.eq := by
  unfold taskLe at hab hba
  rw [compareTasks_swap] at hba
  rcases h : compareTasks a b with _ | _ | _
  · rw [h] at hba
    exact absurd rfl hba
  · rfl
  · rw [h] at hab
    exact absurd rfl hab

/-- Two sorted lists that are permutations of one another are equal, provided
the comparator separates the elements involved (antisymmetry on the multiset
at hand rather than globally). -/
theorem sorted_perm_eq :
    ∀ {l₁ l₂ : List DerivedTask}, l₁.Sorted taskLe → l₂.Sorted taskLe →
      l₁.Perm l₂ →
      (∀ a ∈ l₁, ∀ b ∈ l₁, compareTasks a b = Ordering.eq → a = b) → l₁ = l₂
  | [], l₂, _, _, hp, _ => (List.nil_perm.mp hp).symm
  | a :: t₁, l₂, hs₁, hs₂, hp, ha => by
    rcases l₂ with _ | ⟨b, t₂⟩
    · exact absurd (List.nil_perm.mp hp.symm) (List.cons_ne_nil a t₁)
    have hb : a = b := by
      by_cases hba : b = a
      · exact hba.symm
      have hbmem : b ∈ a :: t₁ := hp.mem_iff.mpr (List.mem_cons_self b t₂)
      have hamem : a ∈ b :: t₂ := hp.mem_iff.mp (List.mem_cons_self a t₁)
      have hab : taskLe a b :=
        List.rel_of_sorted_cons hs₁ b ((List.mem_cons.mp hbmem).resolve_left hba)
      have hba2 : taskLe b a :=
        List.rel_of_sorted_cons hs₂ a
          ((List.mem_cons.mp hamem).resolve_left (fun hc => hba hc.symm))
      exact ha a (List.mem_cons_self a t₁) b hbmem (taskLe_antisymm_eq hab hba2)
    subst hb
    have ht : t₁ = t₂ :=
      sorted_perm_eq hs₁.of_cons hs₂.of_cons hp.cons_inv
        (fun x hx y hy hxy =>
          ha x (List.mem_cons_of_mem a hx) y (List.mem_cons_of_mem a hy) hxy)
    rw [ht]

/-- Claim C1: in the ranked output a strictly larger ROI key (absent ROI
defaulting to 0) always comes first, and a task with absent ROI is on equal
footing with the same task carrying an explicit ROI of 0: the comparator
cannot distinguish them. -/
theorem claim1_roi_descending :
    (∀ (ts : List DerivedTask) (i j : Fin (rank ts).length),
        roiKey ((rank ts).get j) < roiKey ((rank ts).get i) → (i : ℕ) < (j : ℕ)) ∧
    (∀ (a b : DerivedTask),
        compareTasks { a with roi := none } b = compareTasks { a with roi := some 0 } b ∧
        compareTasks b { a with roi := none } = compareTasks b { a with roi := some 0 }) := by
  constructor
  · intro ts i j hlt
    by_contra hij
    push_neg at hij
    rcases Nat.lt_or_ge (j : ℕ) (i : ℕ) with hji | hji
    · have hle := rank_le_of_lt ts j i hji
      rw [taskLe_iff] at hle
      rcases hle with hlt2 | ⟨heq, _⟩
      · exact absurd hlt2 (asymm hlt)
      · rw [heq] at hlt
        exact absurd hlt (lt_irrefl _)
    · have hfin : i = j := Fin.ext (Nat.le_antisymm hji hij)
      rw [hfin] at hlt
      exact absurd hlt (lt_irrefl _)
  · intro a b
    exact ⟨rfl, rfl⟩

/-- Witness for C1: with a ROI-1 task listed before a ROI-5 task, the ranked
output puts the ROI-5 task at position 0 and the smaller one after it. -/
theorem claim1_roi_descending_witness : (0 : ℕ) < 1 :=
  claim1_roi_descending.1
    [mkTask "l" "L" (some 1) Priority.Low, mkTask "h" "H" (some 5) Priority.High]
    ⟨0, by decide⟩ ⟨1, by decide⟩ (by decide)

/-- Claim C4: among positions of the ranked output with equal ROI keys, the
strictly higher priority rank comes first; in particular
`[{B, roi 10, Medium}, {A, roi 10, High}]` ranks as `[A, B]`. -/
theorem claim4_priority_tiebreak :
    (∀ (ts : List DerivedTask) (i j : Fin (rank ts).length),
        roiKey ((rank ts).get i) = roiKey ((rank ts).get j) →
        priorityRank (((rank ts).get j).priority) <
          priorityRank (((rank ts).get i).priority) →
        (i : ℕ) < (j : ℕ)) ∧
    rank [mkTask "b" "B" (some 10) Priority.Medium,
          mkTask "a" "A" (some 10) Priority.High] =
      [mkTask "a" "A" (some 10) Priority.High,
       mkTask "b" "B" (some 10) Priority.Medium] := by
  constructor
  · intro ts i j hroi hprio
    by_contra hij
    push_neg at hij
    rcases Nat.lt_or_ge (j : ℕ) (i : ℕ) with hji | hji
    · have hle := rank_le_of_lt ts j i hji
      rw [taskLe_iff] at hle
      rcases hle with hlt2 | ⟨heq, hrest⟩
      · rw [hroi] at hlt2
        exact absurd hlt2 (lt_irrefl _)
      · rcases hrest with hplt | ⟨hpeq, _⟩
        · exact absurd hplt (asymm hprio)
        · rw [hpeq] at hprio
          exact absurd hprio (lt_irrefl _)
    · have hfin : i = j := Fin.ext (Nat.le_antisymm hji hij)
      rw [hfin] at hprio
      exact absurd hprio (lt_irrefl _)
  · decide

/-- Witness for C4 at the spec's scenario: among ROI-tied tasks, the High
priority task lands strictly before the Medium one. -/
theorem claim4_priority_tiebreak_witness : (0 : ℕ) < 1 :=
  claim4_priority_tiebreak.1
    [mkTask "b" "B" (some 10) Priority.Medium, mkTask "a" "A" (some 10) Priority.High]
    ⟨0, by decide⟩ ⟨1, by decide⟩ (by decide) (by decide)

/-- Two distinct records agreeing on every sort key: same ROI, same priority,
same title, different ids. -/
def tSameA : DerivedTask := mkTask "1" "Same" (some 2) Priority.High

/-- Companion of `tSameA` with a different id but identical sort keys. -/
def tSameB : DerivedTask := mkTask "2" "Same" (some 2) Priority.High

/-- Counterexample to C5 as stated: with two distinct tasks of equal ROI,
priority and title, one precedes the other in the output even though its title
does not sort strictly before; the unrestricted iff fails. -/
theorem claim5_counterexample :
    ¬ (∀ (ts : List DerivedTask) (i j : Fin (rank ts).length),
        roiKey ((rank ts).get i) = roiKey ((rank ts).get j) →
        priorityRank (((rank ts).get i).priority) =
          priorityRank (((rank ts).get j).priority) →
        ((i : ℕ) < (j : ℕ) ↔
          localeCompare (((rank ts).get i).title) (((rank ts).get j).title) =
            Ordering.lt)) := by
  intro hclaim
  have h := hclaim [tSameA, tSameB] ⟨0, by decide⟩ ⟨1, by decide⟩
    (by decide) (by decide)
  exact absurd (h.mp (by decide)) (by decide)

/-- Claim C5 as amended: the title tie-break iff holds for positions with equal
ROI key and equal priority rank whose titles are distinct (for identical
titles the claim as stated fails, see the counterexample). -/
theorem claim5_title_tiebreak :
    ∀ (ts : List DerivedTask) (i j : Fin (rank ts).length),
      roiKey ((rank ts).get i) = roiKey ((rank ts).get j) →
      priorityRank (((rank ts).get i).priority) =
        priorityRank (((rank ts).get j).priority) →
      ((rank ts).get i).title ≠ ((rank ts).get j).title →
      ((i : ℕ) < (j : ℕ) ↔
        localeCompare (((rank ts).get i).title) (((rank ts).get j).title) =
          Ordering.lt) := by
  intro ts i j hroi hprio htitle
  constructor
  · intro hij
    have hle := rank_le_of_lt ts i j hij
    rw [taskLe_iff] at hle
    rcases hle with hlt2 | ⟨heq, hrest⟩
    · rw [hroi] at hlt2
      exact absurd hlt2 (lt_irrefl _)
    · rcases hrest with hplt | ⟨hpeq, hlc⟩
      · rw [hprio] at hplt
        exact absurd hplt (lt_irrefl _)
      · rcases hh : localeCompare (((rank ts).get i).title) (((rank ts).get j).title)
          with _ | _ | _
        · rfl
        · rw [localeCompare_eq_iff] at hh
          exact absurd hh htitle
        · exact absurd hh hlc
  · intro hlc
    by_contra hij
    push_neg at hij
    rcases Nat.lt_or_ge (j : ℕ) (i : ℕ) with hji | hji
    · have hle := rank_le_of_lt ts j i hji
      rw [taskLe_iff] at hle
      rcases hle with hlt2 | ⟨heq, hrest⟩
      · rw [hroi] at hlt2
        exact absurd hlt2 (lt_irrefl _)
      · rcases hrest with hplt | ⟨hpeq, hlc2⟩
        · rw [hprio] at hplt
          exact absurd hplt (lt_irrefl _)
        · rw [localeCompare_swap, hlc] at hlc2
          exact hlc2 rfl
    · have hfin : i = j := Fin.ext (Nat.le_antisymm hji hij)
      rw [hfin] at htitle
      exact htitle rfl

/-- Witness for C5's amended statement: among two ROI- and priority-tied tasks
with distinct titles, title order decides the position. -/
theorem claim5_title_tiebreak_witness : (0 : ℕ) < 1 :=
  (claim5_title_tiebreak
    [mkTask "b" "B" (some 5) Priority.High, mkTask "a" "A" (some 5) Priority.High]
    ⟨0, by decide⟩ ⟨1, by decide⟩ (by decide) (by decide) (by decide)).mpr (by decide)

/-- Counterexample to C6 as stated: two distinct tasks with identical sort
keys; the two orders of the same multiset rank to different sequences,
because the stable sort preserves the incoming order of key-equal records. -/
theorem claim6_counterexample :
    ([tSameA, tSameB]).Perm [tSameB, tSameA] ∧
      rank [tSameA, tSameB] ≠ rank [tSameB, tSameA] := by
  constructor
  · exact List.Perm.swap tSameB tSameA []
  · decide

/-- Claim C6 as amended: the ranked sequence is independent of the input order
for inputs on which the comparator separates records, that is, any two
key-equal tasks of the input are the same record. -/
theorem claim6_determinism :
    ∀ (ts₁ ts₂ : List DerivedTask), ts₁.Perm ts₂ →
      (∀ a ∈ ts₁, ∀ b ∈ ts₁, compareTasks a b = Ordering.eq → a = b) →
      rank ts₁ = rank ts₂ := by
  intro ts₁ ts₂ hp ha
  refine sorted_perm_eq (sorted_rank ts₁) (sorted_rank ts₂)
    ((rank_perm ts₁).trans (hp.trans (rank_perm ts₂).symm)) ?_
  intro a hMemA b hMemB
  exact ha a ((rank_perm ts₁).mem_iff.mp hMemA) b ((rank_perm ts₁).mem_iff.mp hMemB)

/-- Witness for C6's amended statement on a two-element multiset with distinct
keys: both input orders rank identically. -/
theorem claim6_determinism_witness :
    rank [mkTask "x" "X" (some 3) Priority.Low, mkTask "y" "Y" (some 9) Priority.High] =
      rank [mkTask "y" "Y" (some 9) Priority.High, mkTask "x" "X" (some 3) Priority.Low] :=
  claim6_determinism _ _
    (List.Perm.swap (mkTask "y" "Y" (some 9) Priority.High)
      (mkTask "x" "X" (some 3) Priority.Low) [])
    (by decide)

/-- Claim C7: ranking is idempotent; ranking an already ranked sequence
returns it unchanged. -/
theorem claim7_rank_idempotent : ∀ ts : List DerivedTask, rank (rank ts) = rank ts :=
  fun ts => List.Sorted.insertionSort_eq (sorted_rank ts)

/-- Claim C9: the ranked output is a permutation of the input (same length,
same multiset); the empty list ranks to the empty list and a singleton is
returned unchanged. -/
theorem claim9_rank_permutation :
    ∀ ts : List DerivedTask,
      (rank ts).Perm ts ∧ (rank ts).length = ts.length ∧
      rank ([] : List DerivedTask) = [] ∧ ∀ t : DerivedTask, rank [t] = [t] :=
  fun ts => ⟨rank_perm ts, (rank_perm ts).length_eq, rfl, fun _ => rfl⟩

/-- Read the array stored at index `r` of a heap of arrays (an absent index
reads as an empty array; the claims only use in-bounds indices). -/
def readArr : List (List DerivedTask) → ℕ → List DerivedTask
  | [], _ => []
  | a :: _, 0 => a
  | _ :: rest, n + 1 => readArr rest n

/-- Overwrite the array stored at index `r` of a heap of arrays (out-of-bounds
writes are dropped; the claims only use in-bounds indices). -/
def writeArr : List (List DerivedTask) → ℕ → List DerivedTask → List (List DerivedTask)
  | [], _, _ => []
  | _ :: rest, 0, v => v :: rest
  | a :: rest, n + 1, v => a :: writeArr rest n v

/-- Models the statement `const sortedTasks = [...tasks].sort(comparator)`
against an explicit heap of arrays: the spread `[...tasks]` allocates a fresh
array (at the end of the heap) holding the same elements, and `.sort` then
reorders that fresh array in place.  The result is the heap after the
statement together with the reference to the fresh array. -/
def sortedTasksStmt (heap : List (List DerivedTask)) (tasks : ℕ) :
    List (List DerivedTask) × ℕ :=
  (writeArr (heap ++ [readArr heap tasks]) heap.length
      (rank (readArr (heap ++ [readArr heap tasks]) heap.length)),
   heap.length)

/-- Reading an index inside the original heap is unaffected by appending. -/
theorem readArr_append_lt :
    ∀ (l l2 : List (List DerivedTask)) (n : ℕ), n < l.length →
      readArr (l ++ l2) n = readArr l n
  | [], _, n, h => absurd h (by simp)
  | _ :: _, _, 0, _ => rfl
  | _ :: rest, l2, n + 1, h => readArr_append_lt rest l2 n (by simpa using h)

/-- Reading the index just past the original heap yields the appended array. -/
theorem readArr_append_self :
    ∀ (l : List (List DerivedTask)) (v : List DerivedTask),
      readArr (l ++ [v]) l.length = v
  | [], _ => rfl
  | _ :: rest, v => readArr_append_self rest v

/-- Writing one index leaves every other index unchanged. -/
theorem readArr_writeArr_ne :
    ∀ (l : List (List DerivedTask)) (n m : ℕ) (v : List DerivedTask), n ≠ m →
      readArr (writeArr l m v) n = readArr l n
  | [], _, _, _, _ => rfl
  | _ :: _, 0, 0, _, h => absurd rfl h
  | _ :: _, 0, _ + 1, _, _ => rfl
  | _ :: _, _ + 1, 0, _, _ => rfl
  | _ :: rest, n + 1, m + 1, v, h =>
      readArr_writeArr_ne rest n m v (fun hc => h (by rw [hc]))

/-- Reading back an in-bounds write returns the written array. -/
theorem readArr_writeArr_self :
    ∀ (l : List (List DerivedTask)) (m : ℕ) (v : List DerivedTask), m < l.length →
      readArr (writeArr l m v) m = v
  | [], _, _, h => absurd h (by simp)
  | _ :: _, 0, _, _ => rfl
  | _ :: rest, m + 1, v, h => readArr_writeArr_self rest m v (by simpa using h)

/-- Claim C8: evaluating `const sortedTasks = [...tasks].sort(comparator)`
never mutates the input array: afterwards the `tasks` reference still holds
the same elements in the same order, while the freshly allocated array holds
the ranked sequence. -/
theorem claim8_no_mutation :
    ∀ (heap : List (List DerivedTask)) (tasks : ℕ), tasks < heap.length →
      readArr (sortedTasksStmt heap tasks).1 tasks = readArr heap tasks ∧
      readArr (sortedTasksStmt heap tasks).1 (sortedTasksStmt heap tasks).2 =
        rank (readArr heap tasks) := by
  intro heap tasks h
  have hne : tasks ≠ heap.length := Nat.ne_of_lt h
  simp only [sortedTasksStmt]
  constructor
  · rw [readArr_writeArr_ne _ _ _ _ hne]
    exact readArr_append_lt heap _ tasks h
  · rw [readArr_writeArr_self _ _ _ (by simp), readArr_append_self heap _]

/-- Witness for C8 on a one-array heap: the stored input array is unchanged
and the fresh array holds the ranked copy. -/
theorem claim8_no_mutation_witness :
    readArr (sortedTasksStmt [[mkTask "w" "W" (some 1) Priority.Low]] 0).1 0 =
      readArr [[mkTask "w" "W" (some 1) Priority.Low]] 0 ∧
    readArr (sortedTasksStmt [[mkTask "w" "W" (some 1) Priority.Low]] 0).1
        (sortedTasksStmt [[mkTask "w" "W" (some 1) Priority.Low]] 0).2 =
      rank (readArr [[mkTask "w" "W" (some 1) Priority.Low]] 0) :=
  claim8_no_mutation [[mkTask "w" "W" (some 1) Priority.Low]] 0 (by decide)
